import Mathlib

/-!
The managed Harris-buffer wrapper and the gesture processor of handinput.

A shallow embedding of `src/Processor/MHarrisBuffer.cpp` and
`src/Processor/processor.h`.

* Native objects reached through a pointer (`harrisbuffer_`, `feature_proc_`,
  `inf_engine_`) are values that a call receives and hands back
  (state passing).
* Member functions of classes whose code is not in these two files
  (`HarrisBuffer::Init`, `HarrisBuffer::ProcessFrame`, `InfEngine::Reset`,
  `InfEngine::kinect_sample_rate`) are parameters of the function that calls
  them.
* `int` is a 32-bit two's-complement integer (the C++/CLI compiler targets
  only such platforms); the conversion `(int)v.size()` keeps the low 32 bits.
-/

set_option autoImplicit false

/-! ## Data model -/

/-- The native `InterestPoint`, restricted to the members that
`MHarrisBuffer.cpp` reads: the position `x`, `y`, the strength `sx2` and the
`reject` flag.  The member types are declared in a header outside the two
source files, so the coordinate type `C` and the strength type `S` are
parameters. -/
structure InterestPoint (C S : Type) where
  x : C
  y : C
  sx2 : S
  reject : Bool
deriving DecidableEq, Repr

/-- Modelled from the spec: the managed class `MInterestPoint` is declared
outside the two source files; the source only calls its three-argument
constructor.  The spec describes the exported point as "position +
strength", so the object keeps the three constructor arguments. -/
structure MInterestPoint (C S : Type) where
  x : C
  y : C
  sx2 : S
deriving DecidableEq, Repr

/-- The native `HarrisBuffer`: the vector `ipList` that the wrapper reads,
and `rest`, standing for every other member of the class (its declaration is
outside the two source files). -/
structure HarrisBuffer (C S X : Type) where
  ipList : List (InterestPoint C S)
  rest : X
deriving DecidableEq, Repr

/-- The managed wrapper `MHarrisBuffer`; the only member the source uses is
the pointer `harrisbuffer_` to the native buffer it owns. -/
structure MHarrisBuffer (C S X : Type) where
  harrisbuffer_ : HarrisBuffer C S X
deriving DecidableEq, Repr

/-- A managed `System::IntPtr` / a native `IplImage*`: an address.
`reinterpret_cast<IplImage*>(image.ToPointer())` keeps the address. -/
abbrev IntPtr := Int

/-- The null pointer. -/
def NULL : IntPtr := 0

/-- The conversion `(int)n` of a `size_t` value `n`: the low 32 bits, read as
a two's-complement number (a bit pattern from `2^31` on is negative). -/
def int_cast (n : Nat) : Int :=
  if n % 4294967296 < 2147483648 then ((n % 4294967296 : Nat) : Int)
  else ((n % 4294967296 : Nat) : Int) - 4294967296

/-- The constructor call `gcnew MInterestPoint(point.x, point.y, point.sx2)`. -/
def MInterestPoint.ofPoint {C S : Type} (point : InterestPoint C S) : MInterestPoint C S :=
  ⟨point.x, point.y, point.sx2⟩

/-! ## `MHarrisBuffer.cpp` -/

/-- The `for` loop of `MHarrisBuffer::GetInterestPoints`, entered with loop
counter `i` and the `ArrayList` built so far.

```
for (int i = 0; i < (int)harrisbuffer_->ipList.size(); i++) {
  InterestPoint& point = harrisbuffer_->ipList[i];
  if (!point.reject)
    list->Add(gcnew MInterestPoint(point.x, point.y, point.sx2));
}
```
The counter never exceeds the bound, which is at most `INT_MAX`, so `i++`
does not overflow and `i` is a natural number.  `ipList[i]` past the end of
the vector is undefined behaviour: the result is `none`.  The buffer is
handed back with the list. -/
def MHarrisBuffer.GetInterestPoints.loop {C S X : Type} (hb : HarrisBuffer C S X)
    (i : Nat) (list : List (MInterestPoint C S)) :
    Option (List (MInterestPoint C S) × HarrisBuffer C S X) :=
  if (i : Int) < int_cast hb.ipList.length then
    match hb.ipList[i]? with
    | none => none
    | some point =>
      if !point.reject then
        MHarrisBuffer.GetInterestPoints.loop hb (i + 1) (list ++ [MInterestPoint.ofPoint point])
      else
        MHarrisBuffer.GetInterestPoints.loop hb (i + 1) list
  else
    some (list, hb)
termination_by (int_cast hb.ipList.length).toNat - i
decreasing_by
  all_goals simp_wf
  all_goals omega

/-- The function `MHarrisBuffer::GetInterestPoints`: a fresh `ArrayList`,
filled by the loop from `i = 0`, is returned; the second component is the
wrapper after the call. -/
def MHarrisBuffer.GetInterestPoints {C S X : Type} (m : MHarrisBuffer C S X) :
    Option (List (MInterestPoint C S) × MHarrisBuffer C S X) :=
  match MHarrisBuffer.GetInterestPoints.loop m.harrisbuffer_ 0 [] with
  | none => none
  | some (list, hb) => some (list, ⟨hb⟩)

/-- The function `MHarrisBuffer::Init`.

```
bool res = harrisbuffer_->Init(reinterpret_cast<IplImage*>(image.ToPointer()), "output.txt");
return res;
```
`hbInit` is the native `HarrisBuffer::Init`, whose code is outside the two
source files: from the buffer, the image pointer and the file name it gives
what the call hands to its caller (the flag it returns, or the exception it
throws) and the buffer after the call.  The wrapper has no `try`: an
exception of the native call leaves the wrapper as it is. -/
def MHarrisBuffer.Init {C S X E : Type}
    (hbInit : HarrisBuffer C S X → IntPtr → String → Except E Bool × HarrisBuffer C S X)
    (m : MHarrisBuffer C S X) (image : IntPtr) : Except E Bool × MHarrisBuffer C S X :=
  let call := hbInit m.harrisbuffer_ image "output.txt"
  (match call.1 with
    | Except.ok res => Except.ok res
    | Except.error e => Except.error e,
   ⟨call.2⟩)

/-- The function `MHarrisBuffer::ProcessFrame`, a `void` function.

```
harrisbuffer_->ProcessFrame(reinterpret_cast<IplImage*>(image.ToPointer()), NULL, NULL);
```
`hbProcessFrame` is the native `HarrisBuffer::ProcessFrame`, whose code is
outside the two source files: from the buffer and its three pointer
arguments it gives what the call hands to its caller (a returned value of
some type `R`, or a failure, which a C++ call raises as an exception) and the
buffer after the call.  The wrapper uses the call as a statement: a returned
value is dropped, and nothing is returned; the wrapper has no `try`, so a
failure of the native call leaves the wrapper as it is and reaches the
wrapper's caller. -/
def MHarrisBuffer.ProcessFrame {C S X E R : Type}
    (hbProcessFrame :
      HarrisBuffer C S X → IntPtr → IntPtr → IntPtr → Except E R × HarrisBuffer C S X)
    (m : MHarrisBuffer C S X) (image : IntPtr) : Except E Unit × MHarrisBuffer C S X :=
  let call := hbProcessFrame m.harrisbuffer_ image NULL NULL
  (match call.1 with
    | Except.ok _ => Except.ok ()
    | Except.error e => Except.error e,
   ⟨call.2⟩)

namespace handinput

/-- The class `Processor`: its two members, each the object owned through a
`std::unique_ptr`.  `FeatureProcessor` and `InfEngine` are declared in
headers outside the two source files, so their state types are
parameters. -/
structure Processor (FP IE : Type) where
  feature_proc_ : FP
  inf_engine_ : IE
deriving DecidableEq, Repr

/-- The function `void Reset() { inf_engine_->Reset(); }`.  `engine_Reset` is
`InfEngine::Reset`, whose code is outside the two source files, as a
function from the engine before the call to the engine after it. -/
def Processor.Reset {FP IE : Type} (engine_Reset : IE → IE) (p : Processor FP IE) :
    Processor FP IE :=
  { p with inf_engine_ := engine_Reset p.inf_engine_ }

/-- The function
`int KinectSampleRate() { return inf_engine_->kinect_sample_rate(); }`.
`engine_kinect_sample_rate` is the accessor `InfEngine::kinect_sample_rate`,
whose code is outside the two source files: the value it reads from the
engine.  The second component is the processor after the call. -/
def Processor.KinectSampleRate {FP IE : Type} (engine_kinect_sample_rate : IE → Int)
    (p : Processor FP IE) : Int × Processor FP IE :=
  (engine_kinect_sample_rate p.inf_engine_, p)

/-- The states of the inference engine's state machine (spec, Inference
Engine). -/
inductive EngineState where
  | INITIALIZED
  | ACCUMULATING
  | CLASSIFYING
deriving DecidableEq, Repr

/-- Modelled from the spec: the class `InfEngine` is outside the two source
files.  Spec, data model: the engine's state is "accumulated sequence
context ... used to produce a label; owned exclusively by the engine;
cleared atomically on `Reset`"; the state machine has the states
INITIALIZED, ACCUMULATING, CLASSIFYING; ties are broken "by preferring the
previously emitted label"; the sample rate is a "fixed cadence".  `model`
and `kinect_sample_rate` are fixed at construction; `state`, `context` and
`last_label` are the temporal state. -/
structure InfEngine (M F L : Type) where
  model : M
  kinect_sample_rate : Int
  state : EngineState
  context : List F
  last_label : Option L
deriving DecidableEq, Repr

/-- Modelled from the spec: `InfEngine::Reset` is outside the two source
files.  Spec, Inference Engine: `reset()` "clears all temporal state back
to the initial (post-construction) condition"; "INITIALIZED is entered by
construction or `reset`". -/
def InfEngine.Reset {M F L : Type} (e : InfEngine M F L) : InfEngine M F L :=
  { e with state := EngineState.INITIALIZED, context := [], last_label := none }

end handinput

/-! ## Auxiliary notions used in the statements -/

/-- The number of loop iterations for a vector of `n` elements: the bound
`(int)n` when it is positive, and none when it is not. -/
def iterations (n : Nat) : Nat := (int_cast n).toNat

/-- The converted unrejected points among the elements `i, i+1, ..., n-1`
of `ipList`. -/
def appended {C S : Type} (ipList : List (InterestPoint C S)) (n i : Nat) :
    List (MInterestPoint C S) :=
  (((ipList.take n).drop i).filter (fun p => !p.reject)).map MInterestPoint.ofPoint

/-- The list that `GetInterestPoints` is expected to return: the converted
unrejected points among the first `iterations` elements of `ipList`. -/
def exported {C S : Type} (ipList : List (InterestPoint C S)) : List (MInterestPoint C S) :=
  ((ipList.take (iterations ipList.length)).filter (fun p => !p.reject)).map
    MInterestPoint.ofPoint

/-- The number of unrejected points before index `i` of `ipList`: the place
in the exported list of the element made from `ipList[i]`. -/
def place {C S : Type} (ipList : List (InterestPoint C S)) (i : Nat) : Nat :=
  ((ipList.take i).filter (fun p => !p.reject)).length

/-- A buffer of three points, the second one rejected. -/
def sampleBuffer : MHarrisBuffer Int Int Unit :=
  ⟨⟨[⟨1, 2, 3, false⟩, ⟨4, 5, 6, true⟩, ⟨7, 8, 9, false⟩], ()⟩⟩

/-- A vector of `2^31` points: all rejected except the last. -/
def hugeList : List (InterestPoint Int Int) :=
  List.replicate 2147483647 ⟨0, 0, 0, true⟩ ++ [⟨1, 2, 3, false⟩]

theorem iterations_le (n : Nat) : iterations n ≤ n := by
  unfold iterations int_cast
  omega

/-- The loop bound is an `int`: it lies between `INT_MIN` and `INT_MAX`. -/
theorem int_cast_range (n : Nat) : -2147483648 ≤ int_cast n ∧ int_cast n ≤ 2147483647 := by
  unfold int_cast
  split <;> omega

theorem iterations_of_lt {n : Nat} (h : n < 2147483648) : iterations n = n := by
  unfold iterations int_cast
  omega

theorem lt_int_cast_iff (i n : Nat) : (i : Int) < int_cast n ↔ i < iterations n := by
  unfold iterations
  omega

theorem appended_of_ge {C S : Type} (ipList : List (InterestPoint C S)) (n i : Nat)
    (h : n ≤ i) : appended ipList n i = [] := by
  have hd : (ipList.take n).drop i = [] := by
    apply List.drop_eq_nil_of_le
    simp only [List.length_take]
    omega
  simp only [appended, hd, List.filter_nil, List.map_nil]

theorem appended_of_lt {C S : Type} (ipList : List (InterestPoint C S)) (n i : Nat)
    (point : InterestPoint C S) (h : i < n) (hp : ipList[i]? = some point) :
    appended ipList n i =
      if !point.reject then MInterestPoint.ofPoint point :: appended ipList n (i + 1)
      else appended ipList n (i + 1) := by
  have hi : i < ipList.length := by
    rcases List.getElem?_eq_some_iff.1 hp with ⟨hi, _⟩
    exact hi
  have hlen : i < (ipList.take n).length := by
    simp only [List.length_take]
    omega
  have hget : (ipList.take n)[i] = point := by
    have h1 : (ipList.take n)[i]? = some point := by
      rw [List.getElem?_take_of_lt h, hp]
    rw [List.getElem?_eq_getElem hlen] at h1
    exact Option.some.inj h1
  simp only [appended]
  rw [List.drop_eq_getElem_cons hlen, hget, List.filter_cons]
  cases hr : point.reject <;> simp

/-- The loop from counter `i` and list `list` yields `list` extended by the
converted unrejected points at `i, ..., n-1`, and the buffer it was given,
where `n` is the number of iterations. -/
theorem loop_eq_aux {C S X : Type} (hb : HarrisBuffer C S X) (n : Nat)
    (hn : iterations hb.ipList.length = n) :
    ∀ (k i : Nat) (list : List (MInterestPoint C S)),
      n - i = k →
      MHarrisBuffer.GetInterestPoints.loop hb i list
        = some (list ++ appended hb.ipList n i, hb) := by
  have hle : n ≤ hb.ipList.length := by
    rw [← hn]; exact iterations_le _
  intro k
  induction k with
  | zero =>
    intro i list hk
    have hc : ¬ ((i : Int) < int_cast hb.ipList.length) := by
      rw [lt_int_cast_iff, hn]; omega
    rw [MHarrisBuffer.GetInterestPoints.loop, if_neg hc, appended_of_ge _ _ _ (by omega),
      List.append_nil]
  | succ k ih =>
    intro i list hk
    have hlt : i < n := by omega
    have hlen : i < hb.ipList.length := lt_of_lt_of_le hlt hle
    have hp : hb.ipList[i]? = some hb.ipList[i] := List.getElem?_eq_getElem hlen
    have hc : (i : Int) < int_cast hb.ipList.length := by
      rw [lt_int_cast_iff, hn]; exact hlt
    rw [MHarrisBuffer.GetInterestPoints.loop, if_pos hc, hp]
    simp only []
    rw [appended_of_lt _ _ _ _ hlt hp]
    cases hr : (hb.ipList[i]).reject
    · simp only [Bool.not_false, if_true]
      rw [ih (i + 1) _ (by omega)]
      simp
    · simp only [Bool.not_true, Bool.false_eq_true, if_false]
      rw [ih (i + 1) _ (by omega)]

theorem appended_zero {C S : Type} (ipList : List (InterestPoint C S)) (n : Nat) :
    appended ipList n 0 =
      ((ipList.take n).filter (fun p => !p.reject)).map MInterestPoint.ofPoint := by
  simp only [appended, List.drop_zero]

/-- The call `GetInterestPoints` always returns; it returns `exported ipList`
and the wrapper it was called on. -/
theorem GetInterestPoints_eq {C S X : Type} (m : MHarrisBuffer C S X) :
    MHarrisBuffer.GetInterestPoints m = some (exported m.harrisbuffer_.ipList, m) := by
  have h := loop_eq_aux m.harrisbuffer_ (iterations m.harrisbuffer_.ipList.length)
    (Eq.refl _) _ 0 [] (Eq.refl _)
  rw [appended_zero, List.nil_append] at h
  rw [MHarrisBuffer.GetInterestPoints, h]
  rfl

theorem exported_of_lt {C S : Type} (ipList : List (InterestPoint C S))
    (h : ipList.length < 2147483648) :
    exported ipList = (ipList.filter (fun p => !p.reject)).map MInterestPoint.ofPoint := by
  simp only [exported]
  rw [iterations_of_lt h, List.take_of_length_le (le_refl _)]

/-! ## Lemmas on the exported list -/

theorem exported_eq_map {C S : Type} (ipList : List (InterestPoint C S)) :
    exported ipList =
      ((ipList.take (iterations ipList.length)).filter (fun p => !p.reject)).map
        MInterestPoint.ofPoint := by
  simp only [exported]

theorem exported_source_sublist {C S : Type} (ipList : List (InterestPoint C S)) (n : Nat) :
    List.Sublist ((ipList.take n).filter (fun p => !p.reject)) ipList :=
  List.Sublist.trans (List.filter_sublist _) (List.take_sublist _ _)

theorem exported_source_unrejected {C S : Type} (ipList : List (InterestPoint C S)) (n : Nat)
    (p : InterestPoint C S) (hp : p ∈ (ipList.take n).filter (fun p => !p.reject)) :
    p.reject = false := by
  have h := (List.mem_filter.1 hp).2
  cases hr : p.reject
  · rfl
  · rw [hr] at h
    exact absurd h (by decide)

theorem place_le_of_le {C S : Type} (ipList : List (InterestPoint C S)) {i j : Nat}
    (h : i ≤ j) : place ipList i ≤ place ipList j := by
  have ht : ipList.take i = (ipList.take j).take i := by
    rw [List.take_take, Nat.min_eq_left h]
  have hs : List.Sublist (ipList.take i) (ipList.take j) := by
    rw [ht]; exact List.take_sublist _ _
  simp only [place]
  exact (hs.filter _).length_le

theorem place_succ {C S : Type} (ipList : List (InterestPoint C S)) (i : Nat)
    (p : InterestPoint C S) (hp : ipList[i]? = some p) (hr : p.reject = false) :
    place ipList (i + 1) = place ipList i + 1 := by
  simp only [place]
  rw [List.take_succ, hp]
  simp [List.filter_append, List.filter_cons, hr]

theorem place_lt_of_lt {C S : Type} (ipList : List (InterestPoint C S)) {i j : Nat}
    (p : InterestPoint C S) (hp : ipList[i]? = some p) (hr : p.reject = false)
    (h : i < j) : place ipList i < place ipList j := by
  have h1 := place_succ ipList i p hp hr
  have h2 : place ipList (i + 1) ≤ place ipList j := place_le_of_le ipList h
  omega

/-- The element of the filtered list at the place of `i` is `ipList[i]`. -/
theorem filter_getElem?_place {C S : Type} (ipList : List (InterestPoint C S)) (i : Nat)
    (p : InterestPoint C S) (hp : ipList[i]? = some p) (hr : p.reject = false) :
    (ipList.filter (fun p => !p.reject))[place ipList i]? = some p := by
  have hi : i < ipList.length := by
    rcases List.getElem?_eq_some_iff.1 hp with ⟨hi, _⟩
    exact hi
  have hget : ipList[i] = p := by
    rcases List.getElem?_eq_some_iff.1 hp with ⟨_, hg⟩
    exact hg
  have hsplit : ipList = ipList.take i ++ p :: ipList.drop (i + 1) := by
    rw [← hget, ← List.drop_eq_getElem_cons hi, List.take_append_drop]
  have hf : ipList.filter (fun p => !p.reject)
      = (ipList.take i).filter (fun p => !p.reject)
        ++ p :: (ipList.drop (i + 1)).filter (fun p => !p.reject) := by
    conv_lhs => rw [hsplit]
    rw [List.filter_append, List.filter_cons]
    simp [hr]
  rw [hf]
  simp only [place]
  rw [List.getElem?_append_right (le_refl _), Nat.sub_self, List.getElem?_cons_zero]

theorem exported_getElem?_place {C S : Type} (ipList : List (InterestPoint C S))
    (hsize : ipList.length < 2147483648) (i : Nat)
    (p : InterestPoint C S) (hp : ipList[i]? = some p) (hr : p.reject = false) :
    (exported ipList)[place ipList i]? = some (MInterestPoint.ofPoint p) := by
  rw [exported_of_lt ipList hsize, List.getElem?_map, filter_getElem?_place ipList i p hp hr]
  rfl

theorem exported_length {C S : Type} (ipList : List (InterestPoint C S))
    (hsize : ipList.length < 2147483648) :
    (exported ipList).length = ipList.countP (fun p => !p.reject) := by
  rw [exported_of_lt ipList hsize, List.length_map, List.countP_eq_length_filter]

theorem exported_mem {C S : Type} (ipList : List (InterestPoint C S))
    (e : MInterestPoint C S) (he : e ∈ exported ipList) :
    ∃ p, p ∈ ipList ∧ p.reject = false ∧ e = MInterestPoint.ofPoint p := by
  rw [exported_eq_map] at he
  rcases List.mem_map.1 he with ⟨p, hp, hpe⟩
  exact ⟨p, (exported_source_sublist ipList _).subset hp,
    exported_source_unrejected ipList _ p hp, hpe.symm⟩

theorem exported_eq_nil {C S : Type} (ipList : List (InterestPoint C S))
    (h : ∀ p ∈ ipList, p.reject = true) : exported ipList = [] := by
  rw [exported_eq_map]
  have hf : (ipList.take (iterations ipList.length)).filter (fun p => !p.reject) = [] := by
    rw [List.filter_eq_nil_iff]
    intro a ha
    have := h a ((List.take_sublist _ _).subset ha)
    simp [this]
  rw [hf, List.map_nil]

theorem exported_sublist_map {C S : Type} (ipList : List (InterestPoint C S)) :
    List.Sublist (exported ipList) (ipList.map MInterestPoint.ofPoint) := by
  rw [exported_eq_map]
  exact (exported_source_sublist ipList _).map _

theorem int_cast_two_pow_31 : int_cast 2147483648 = -2147483648 := by
  simp [int_cast]

theorem iterations_two_pow_31 : iterations 2147483648 = 0 := by
  simp only [iterations, int_cast_two_pow_31]
  rfl

theorem exported_eq_nil_of_length {C S : Type} (ipList : List (InterestPoint C S))
    (h : ipList.length = 2147483648) : exported ipList = [] := by
  rw [exported_eq_map, h, iterations_two_pow_31, List.take_zero]
  rfl

theorem hugeList_length : hugeList.length = 2147483648 := by
  rw [hugeList, List.length_append, List.length_replicate, List.length_singleton]

theorem exported_sublist_filter_map {C S : Type} (ipList : List (InterestPoint C S)) :
    List.Sublist (exported ipList)
      ((ipList.filter (fun p => !p.reject)).map MInterestPoint.ofPoint) := by
  rw [exported_eq_map]
  exact ((List.take_sublist _ ipList).filter _).map _

theorem place_take {C S : Type} (ipList : List (InterestPoint C S)) {i n : Nat}
    (h : i ≤ n) : place (ipList.take n) i = place ipList i := by
  simp only [place]
  rw [List.take_take, Nat.min_eq_left h]

theorem exported_length_eq_place {C S : Type} (ipList : List (InterestPoint C S)) :
    (exported ipList).length = place ipList (iterations ipList.length) := by
  rw [exported_eq_map, List.length_map]
  simp only [place]

/-- The element made from an unrejected point inside the loop's range stands
at the point's place. -/
theorem exported_getElem?_place_of_lt {C S : Type} (ipList : List (InterestPoint C S))
    (i : Nat) (p : InterestPoint C S) (hi : i < iterations ipList.length)
    (hp : ipList[i]? = some p) (hr : p.reject = false) :
    (exported ipList)[place ipList i]? = some (MInterestPoint.ofPoint p) := by
  have ht : (ipList.take (iterations ipList.length))[i]? = some p := by
    rw [List.getElem?_take_of_lt hi, hp]
  have hf := filter_getElem?_place (ipList.take (iterations ipList.length)) i p ht hr
  rw [place_take ipList (Nat.le_of_lt hi)] at hf
  rw [exported_eq_map, List.getElem?_map, hf]
  rfl

/-- An unrejected point whose place lies inside the exported list is inside
the loop's range. -/
theorem lt_iterations_of_place_lt {C S : Type} (ipList : List (InterestPoint C S))
    (j : Nat) (h : place ipList j < (exported ipList).length) :
    j < iterations ipList.length := by
  rw [exported_length_eq_place] at h
  by_contra hge
  have := place_le_of_le ipList (Nat.le_of_not_lt hge)
  omega

/-! ## The claims on `MHarrisBuffer::GetInterestPoints` -/

/-- C1: for every buffer state `GetInterestPoints` returns, and the list it
returns is made, element by element, from a sub-sequence of `ipList` in which
no point has its reject flag set; so no element comes from a rejected point.
The same holds of the state reached by `Init` followed by `ProcessFrame`,
whatever the two native functions do. -/
theorem GetInterestPoints_excludes_rejected {C S X E R : Type}
    (hbInit : HarrisBuffer C S X → IntPtr → String → Except E Bool × HarrisBuffer C S X)
    (hbProcessFrame :
      HarrisBuffer C S X → IntPtr → IntPtr → IntPtr → Except E R × HarrisBuffer C S X)
    (m : MHarrisBuffer C S X) (image frame : IntPtr) :
    (∃ list ps, MHarrisBuffer.GetInterestPoints m = some (list, m)
      ∧ List.Sublist ps m.harrisbuffer_.ipList
      ∧ (∀ p ∈ ps, p.reject = false)
      ∧ list = ps.map MInterestPoint.ofPoint)
    ∧ (∃ list ps,
        MHarrisBuffer.GetInterestPoints
            (MHarrisBuffer.ProcessFrame hbProcessFrame
              (MHarrisBuffer.Init hbInit m image).2 frame).2
          = some (list,
              (MHarrisBuffer.ProcessFrame hbProcessFrame
                (MHarrisBuffer.Init hbInit m image).2 frame).2)
      ∧ List.Sublist ps
          (MHarrisBuffer.ProcessFrame hbProcessFrame
            (MHarrisBuffer.Init hbInit m image).2 frame).2.harrisbuffer_.ipList
      ∧ (∀ p ∈ ps, p.reject = false)
      ∧ list = ps.map MInterestPoint.ofPoint) := by
  have key : ∀ m' : MHarrisBuffer C S X,
      ∃ list ps, MHarrisBuffer.GetInterestPoints m' = some (list, m')
        ∧ List.Sublist ps m'.harrisbuffer_.ipList
        ∧ (∀ p ∈ ps, p.reject = false)
        ∧ list = ps.map MInterestPoint.ofPoint := by
    intro m'
    exact ⟨_, _, GetInterestPoints_eq m', exported_source_sublist _ _,
      exported_source_unrejected _ _, exported_eq_map _⟩
  exact ⟨key m, key _⟩

/-- C2 (as amended): for every `ipList` of fewer than `2^31` points,
`GetInterestPoints` returns the converted unrejected points of `ipList`: the
list's length is the number of unrejected points, the element at the place of
an unrejected point `ipList[i]` (the number of unrejected points before `i`)
carries that point's `x`, `y` and `sx2` unchanged, and two different
unrejected points have different places. -/
theorem GetInterestPoints_exports_each_unrejected_once {C S X : Type}
    (m : MHarrisBuffer C S X) (hsize : m.harrisbuffer_.ipList.length < 2147483648) :
    ∃ list, MHarrisBuffer.GetInterestPoints m = some (list, m)
      ∧ list = (m.harrisbuffer_.ipList.filter (fun p => !p.reject)).map
          MInterestPoint.ofPoint
      ∧ list.length = m.harrisbuffer_.ipList.countP (fun p => !p.reject)
      ∧ (∀ i p, m.harrisbuffer_.ipList[i]? = some p → p.reject = false →
          list[place m.harrisbuffer_.ipList i]? = some ⟨p.x, p.y, p.sx2⟩)
      ∧ (∀ i j p q, m.harrisbuffer_.ipList[i]? = some p →
          m.harrisbuffer_.ipList[j]? = some q → p.reject = false → q.reject = false →
          place m.harrisbuffer_.ipList i = place m.harrisbuffer_.ipList j → i = j) := by
  refine ⟨_, GetInterestPoints_eq m, exported_of_lt _ hsize, exported_length _ hsize, ?_, ?_⟩
  · intro i p hp hr
    exact exported_getElem?_place _ hsize i p hp hr
  · intro i j p q hp hq hpr hqr hpl
    rcases Nat.lt_trichotomy i j with h | h | h
    · have := place_lt_of_lt m.harrisbuffer_.ipList p hp hpr h
      omega
    · exact h
    · have := place_lt_of_lt m.harrisbuffer_.ipList q hq hqr h
      omega

/-- C2, witness: the theorem at `sampleBuffer` (three points, the second
rejected) gives the two converted unrejected points. -/
theorem GetInterestPoints_exports_each_unrejected_once_witness :
    sampleBuffer.harrisbuffer_.ipList.length < 2147483648
    ∧ MHarrisBuffer.GetInterestPoints sampleBuffer
        = some ([⟨1, 2, 3⟩, ⟨7, 8, 9⟩], sampleBuffer) := by
  refine ⟨by decide, ?_⟩
  obtain ⟨list, h1, h2, _⟩ :=
    GetInterestPoints_exports_each_unrejected_once sampleBuffer (by decide)
  rw [h1, h2]
  rfl

/-- C2, counterexample: `hugeList` has `2^31` points and its last point is
unrejected, but `(int)ipList.size()` is negative, the loop body never runs
and the returned list is empty. -/
theorem GetInterestPoints_hugeList_drops_unrejected :
    MHarrisBuffer.GetInterestPoints (⟨⟨hugeList, ()⟩⟩ : MHarrisBuffer Int Int Unit)
        = some ([], ⟨⟨hugeList, ()⟩⟩)
    ∧ hugeList[2147483647]? = some ⟨1, 2, 3, false⟩ := by
  constructor
  · rw [GetInterestPoints_eq, exported_eq_nil_of_length _ hugeList_length]
  · have hle : (List.replicate 2147483647 (⟨0, 0, 0, true⟩ : InterestPoint Int Int)).length
        ≤ 2147483647 := by
      rw [List.length_replicate]
    rw [hugeList, List.getElem?_append_right hle, List.length_replicate, Nat.sub_self,
      List.getElem?_cons_zero]

/-- C3: the result of `GetInterestPoints` is in detection order.  For every
`ipList` the returned list is a sub-sequence, in the order of `ipList`, of the
converted `ipList` and of its converted unrejected points; and whenever
unrejected points stand at indices `i < j` of `ipList`, the place of the
element for `i` is before the place of the element for `j`: when the list
holds the element for `j` it holds the element for `i` before it, and for a
vector of fewer than `2^31` points it holds both. -/
theorem GetInterestPoints_detection_order {C S X : Type}
    (m : MHarrisBuffer C S X)
    (i j : Nat) (p q : InterestPoint C S) (hij : i < j)
    (hp : m.harrisbuffer_.ipList[i]? = some p) (hq : m.harrisbuffer_.ipList[j]? = some q)
    (hpr : p.reject = false) (hqr : q.reject = false) :
    ∃ list, MHarrisBuffer.GetInterestPoints m = some (list, m)
      ∧ List.Sublist list (m.harrisbuffer_.ipList.map MInterestPoint.ofPoint)
      ∧ List.Sublist list
          ((m.harrisbuffer_.ipList.filter (fun p => !p.reject)).map MInterestPoint.ofPoint)
      ∧ place m.harrisbuffer_.ipList i < place m.harrisbuffer_.ipList j
      ∧ (place m.harrisbuffer_.ipList j < list.length →
          list[place m.harrisbuffer_.ipList i]? = some (MInterestPoint.ofPoint p)
          ∧ list[place m.harrisbuffer_.ipList j]? = some (MInterestPoint.ofPoint q))
      ∧ (m.harrisbuffer_.ipList.length < 2147483648 →
          list[place m.harrisbuffer_.ipList i]? = some (MInterestPoint.ofPoint p)
          ∧ list[place m.harrisbuffer_.ipList j]? = some (MInterestPoint.ofPoint q)) := by
  refine ⟨_, GetInterestPoints_eq m, exported_sublist_map _, exported_sublist_filter_map _,
    place_lt_of_lt _ p hp hpr hij, ?_, ?_⟩
  · intro hin
    have hj := lt_iterations_of_place_lt _ j hin
    exact ⟨exported_getElem?_place_of_lt _ i p (Nat.lt_trans hij hj) hp hpr,
      exported_getElem?_place_of_lt _ j q hj hq hqr⟩
  · intro hsize
    exact ⟨exported_getElem?_place _ hsize i p hp hpr,
      exported_getElem?_place _ hsize j q hq hqr⟩

/-- C3, witness: in `sampleBuffer` the unrejected points at indices 0 and 2
are exported, in this order, at places 0 and 1. -/
theorem GetInterestPoints_detection_order_witness :
    MHarrisBuffer.GetInterestPoints sampleBuffer
        = some ([⟨1, 2, 3⟩, ⟨7, 8, 9⟩], sampleBuffer)
    ∧ place sampleBuffer.harrisbuffer_.ipList 0 = 0
    ∧ place sampleBuffer.harrisbuffer_.ipList 2 = 1
    ∧ ∃ list, MHarrisBuffer.GetInterestPoints sampleBuffer = some (list, sampleBuffer)
      ∧ place sampleBuffer.harrisbuffer_.ipList 0 < place sampleBuffer.harrisbuffer_.ipList 2
      ∧ list[place sampleBuffer.harrisbuffer_.ipList 0]? = some ⟨1, 2, 3⟩
      ∧ list[place sampleBuffer.harrisbuffer_.ipList 2]? = some ⟨7, 8, 9⟩ := by
  obtain ⟨list, h1, _, _, h4, _, h6⟩ :=
    GetInterestPoints_detection_order sampleBuffer 0 2
      ⟨1, 2, 3, false⟩ ⟨7, 8, 9, false⟩ (by decide) rfl rfl rfl rfl
  have h7 := h6 (by decide)
  refine ⟨?_, by decide, by decide, list, h1, h4, h7.1, h7.2⟩
  rw [GetInterestPoints_eq, exported_of_lt _ (by decide)]
  rfl

/-- C9: `GetInterestPoints` is read-only: for every buffer state it returns a
list together with the wrapper it was called on, so `ipList` holds the same
points, with the same `x`, `y`, `sx2` and reject flags, rejected ones
included; and when `ipList` is empty or every point is rejected, the call
returns the empty list. -/
theorem GetInterestPoints_read_only {C S X : Type} (m : MHarrisBuffer C S X) :
    ∃ list m1, MHarrisBuffer.GetInterestPoints m = some (list, m1)
      ∧ m1 = m
      ∧ m1.harrisbuffer_.ipList = m.harrisbuffer_.ipList
      ∧ (∀ p ∈ m.harrisbuffer_.ipList, p.reject = true → p ∈ m1.harrisbuffer_.ipList)
      ∧ (m.harrisbuffer_.ipList = [] → list = [])
      ∧ ((∀ p ∈ m.harrisbuffer_.ipList, p.reject = true) → list = []) := by
  refine ⟨_, m, GetInterestPoints_eq m, rfl, rfl, fun _ hp _ => hp, ?_, exported_eq_nil _⟩
  intro h
  apply exported_eq_nil
  intro p hp
  rw [h] at hp
  exact absurd hp (List.not_mem_nil p)

/-- C10: `GetInterestPoints` is a snapshot of the current `ipList`: the
returned list does not depend on the other members of the buffer, a second
call on the state left by the first returns the same list, and a call made
after `ProcessFrame` has replaced `ipList` returns only elements made from
unrejected points of the new `ipList`. -/
theorem GetInterestPoints_snapshot {C S X X1 E R : Type}
    (hbProcessFrame :
      HarrisBuffer C S X → IntPtr → IntPtr → IntPtr → Except E R × HarrisBuffer C S X)
    (m : MHarrisBuffer C S X) (rest1 : X1) (frame : IntPtr) :
    (∃ list, MHarrisBuffer.GetInterestPoints m = some (list, m)
      ∧ MHarrisBuffer.GetInterestPoints
            (⟨⟨m.harrisbuffer_.ipList, rest1⟩⟩ : MHarrisBuffer C S X1)
          = some (list, ⟨⟨m.harrisbuffer_.ipList, rest1⟩⟩))
    ∧ (∃ list m1, MHarrisBuffer.GetInterestPoints m = some (list, m1)
      ∧ MHarrisBuffer.GetInterestPoints m1 = some (list, m1))
    ∧ (∃ list,
        MHarrisBuffer.GetInterestPoints (MHarrisBuffer.ProcessFrame hbProcessFrame m frame).2
          = some (list, (MHarrisBuffer.ProcessFrame hbProcessFrame m frame).2)
      ∧ ∀ e ∈ list, ∃ p ∈ (hbProcessFrame m.harrisbuffer_ frame NULL NULL).2.ipList,
          p.reject = false ∧ e = MInterestPoint.ofPoint p) := by
  refine ⟨⟨_, GetInterestPoints_eq m, GetInterestPoints_eq _⟩,
    ⟨_, m, GetInterestPoints_eq m, GetInterestPoints_eq m⟩,
    ⟨_, GetInterestPoints_eq _, ?_⟩⟩
  intro e he
  rcases exported_mem _ e he with ⟨p, hp, hr, hpe⟩
  exact ⟨p, hp, hr, hpe⟩

/-! ## The claims on `MHarrisBuffer::ProcessFrame` and `MHarrisBuffer::Init` -/

/-- The wrapper `ProcessFrame`, for every native `ProcessFrame` and every image
pointer: the buffer after the call is the buffer the native call leaves, a
returned value is dropped, and the caller receives a failure exactly when
the native call hands one over. -/
theorem ProcessFrame_forwards {C S X E R : Type}
    (hbProcessFrame :
      HarrisBuffer C S X → IntPtr → IntPtr → IntPtr → Except E R × HarrisBuffer C S X)
    (m : MHarrisBuffer C S X) (image : IntPtr) :
    (MHarrisBuffer.ProcessFrame hbProcessFrame m image).2.harrisbuffer_
        = (hbProcessFrame m.harrisbuffer_ image NULL NULL).2
    ∧ (MHarrisBuffer.ProcessFrame hbProcessFrame m image).1
        = Except.map (fun _ => ()) (hbProcessFrame m.harrisbuffer_ image NULL NULL).1
    ∧ ((MHarrisBuffer.ProcessFrame hbProcessFrame m image).2 = m
        ↔ (hbProcessFrame m.harrisbuffer_ image NULL NULL).2 = m.harrisbuffer_)
    ∧ (∀ e, (MHarrisBuffer.ProcessFrame hbProcessFrame m image).1 = Except.error e
        ↔ (hbProcessFrame m.harrisbuffer_ image NULL NULL).1 = Except.error e) := by
  refine ⟨rfl, ?_, ?_, ?_⟩
  · simp only [MHarrisBuffer.ProcessFrame]
    cases (hbProcessFrame m.harrisbuffer_ image NULL NULL).1 <;> rfl
  · cases m with
    | mk hb =>
      simp only [MHarrisBuffer.ProcessFrame, MHarrisBuffer.mk.injEq]
  · intro e
    simp only [MHarrisBuffer.ProcessFrame]
    cases (hbProcessFrame m.harrisbuffer_ image NULL NULL).1 <;> simp

/-- C5: `Init` hands its caller exactly what the native `Init` hands it (the
flag `false` exactly when the native `Init` returns `false`, `true` exactly
when it returns `true`), called with the same image pointer and the file name
`"output.txt"`; the wrapper holds nothing but the native buffer, so a later
`Init` gives exactly what the native `Init` gives on the buffer that the
earlier call left, whether or not the earlier call failed. -/
theorem Init_returns_native_flag {C S X E : Type}
    (hbInit : HarrisBuffer C S X → IntPtr → String → Except E Bool × HarrisBuffer C S X)
    (m : MHarrisBuffer C S X) (image later : IntPtr) :
    (MHarrisBuffer.Init hbInit m image).1 = (hbInit m.harrisbuffer_ image "output.txt").1
    ∧ ((MHarrisBuffer.Init hbInit m image).1 = Except.ok false
        ↔ (hbInit m.harrisbuffer_ image "output.txt").1 = Except.ok false)
    ∧ ((MHarrisBuffer.Init hbInit m image).1 = Except.ok true
        ↔ (hbInit m.harrisbuffer_ image "output.txt").1 = Except.ok true)
    ∧ (MHarrisBuffer.Init hbInit m image).2
        = ⟨(hbInit m.harrisbuffer_ image "output.txt").2⟩
    ∧ (MHarrisBuffer.Init hbInit (MHarrisBuffer.Init hbInit m image).2 later).1
        = (hbInit (hbInit m.harrisbuffer_ image "output.txt").2 later "output.txt").1
    ∧ ((MHarrisBuffer.Init hbInit (MHarrisBuffer.Init hbInit m image).2 later).1
          = Except.ok true
        ↔ (hbInit (hbInit m.harrisbuffer_ image "output.txt").2 later "output.txt").1
          = Except.ok true) := by
  have h1 : ∀ (m' : MHarrisBuffer C S X) (img : IntPtr),
      (MHarrisBuffer.Init hbInit m' img).1 = (hbInit m'.harrisbuffer_ img "output.txt").1 := by
    intro m' img
    simp only [MHarrisBuffer.Init]
    cases (hbInit m'.harrisbuffer_ img "output.txt").1 <;> rfl
  have h2 : (MHarrisBuffer.Init hbInit (MHarrisBuffer.Init hbInit m image).2 later).1
      = (hbInit (hbInit m.harrisbuffer_ image "output.txt").2 later "output.txt").1 := by
    rw [h1]
    rfl
  refine ⟨h1 m image, ?_, ?_, rfl, h2, ?_⟩
  · rw [h1]
  · rw [h1]
  · rw [h2]

/-! ## The claims on `Processor` -/

/-- C6: `Processor::Reset` changes the processor only by applying the engine's
`Reset` to `inf_engine_`: `feature_proc_`, and with it whatever it holds
(the interest-point buffer's state, read by any `buffer`), is the same after
the call as before. -/
theorem Reset_changes_only_engine {FP IE B : Type} (engine_Reset : IE → IE)
    (buffer : FP → B) (p : handinput.Processor FP IE) :
    (handinput.Processor.Reset engine_Reset p).feature_proc_ = p.feature_proc_
    ∧ buffer (handinput.Processor.Reset engine_Reset p).feature_proc_
        = buffer p.feature_proc_
    ∧ (handinput.Processor.Reset engine_Reset p).inf_engine_ = engine_Reset p.inf_engine_
    ∧ handinput.Processor.Reset engine_Reset p
        = ⟨p.feature_proc_, engine_Reset p.inf_engine_⟩ :=
  ⟨rfl, rfl, rfl, rfl⟩

/-- C7: `Processor::KinectSampleRate` returns exactly the engine's
`kinect_sample_rate` and leaves the processor as it was; it keeps no record
of calls: a second call returns the same value and state, and the value does
not depend on `feature_proc_`. -/
theorem KinectSampleRate_delegates {FP IE : Type} (engine_kinect_sample_rate : IE → Int)
    (p : handinput.Processor FP IE) (fp : FP) :
    (handinput.Processor.KinectSampleRate engine_kinect_sample_rate p).1
        = engine_kinect_sample_rate p.inf_engine_
    ∧ (handinput.Processor.KinectSampleRate engine_kinect_sample_rate p).2 = p
    ∧ handinput.Processor.KinectSampleRate engine_kinect_sample_rate
          (handinput.Processor.KinectSampleRate engine_kinect_sample_rate p).2
        = handinput.Processor.KinectSampleRate engine_kinect_sample_rate p
    ∧ (handinput.Processor.KinectSampleRate engine_kinect_sample_rate
          { p with feature_proc_ := fp }).1
        = (handinput.Processor.KinectSampleRate engine_kinect_sample_rate p).1 :=
  ⟨rfl, rfl, rfl, rfl⟩

/-- C8: `Processor::Reset` is idempotent: with the engine `Reset` of the spec,
two calls in a row leave the processor in the same state as one call; and for
any engine `Reset`, the processor's `Reset` is idempotent at a state exactly
when the engine's is. -/
theorem Reset_idempotent {FP IE M F L : Type}
    (p : handinput.Processor FP (handinput.InfEngine M F L))
    (engine_Reset : IE → IE) (p1 : handinput.Processor FP IE) :
    handinput.Processor.Reset handinput.InfEngine.Reset
        (handinput.Processor.Reset handinput.InfEngine.Reset p)
      = handinput.Processor.Reset handinput.InfEngine.Reset p
    ∧ (handinput.Processor.Reset engine_Reset (handinput.Processor.Reset engine_Reset p1)
          = handinput.Processor.Reset engine_Reset p1
        ↔ engine_Reset (engine_Reset p1.inf_engine_) = engine_Reset p1.inf_engine_) := by
  refine ⟨rfl, ?_⟩
  simp only [handinput.Processor.Reset, handinput.Processor.mk.injEq, true_and]
